import Mathlib

/-!
Verification of the Oracle Core of the divination program
(src/divination/sarah_fm2.5.py): the I Ching casting engine
(IChingCaster.cast_coins, IChingCaster.cast_yarrow_stalks,
IChingCaster.get_trigram_symbols, QuadrupleGoddessSystem.cast_iching_traditional)
and the magic-square generator (MagicSquareGenerator,
QuadrupleGoddessSystem.generate_custom_square).

Randomness model: the Python code draws from `random`.  Each casting
function here takes a stream `r : ℕ → ℕ` of arbitrary draws:
`random.random() > 0.5` (a fair coin) is modelled as `r k % 2 = 1`,
`random.randint(a, b)` (uniform on the a..b inclusive) as
`a + r k % (b - a + 1)`.  Every theorem below quantifies over all streams,
so it covers every outcome the Python RNG can produce.

Machine integers: Python's ints are unbounded, so ℕ/ℤ model them exactly;
`%` on a possibly negative int with a positive modulus (Python semantics)
is ℤ's `%` (Int.emod), which is likewise nonnegative for a positive modulus.
-/

namespace IChingCaster

/-- One coin of the three-coin toss, line 49 of the source:
`3 if random.random() > 0.5 else 2`. -/
def coinFlip (r : ℕ → ℕ) (k : ℕ) : ℕ := if r k % 2 = 1 then 3 else 2

/-- `total = sum([3 if random.random() > 0.5 else 2 for _ in range(3)])`
(line 52), the three flips of line `line_num` drawn from the stream. -/
def coinTotal (r : ℕ → ℕ) (line_num : ℕ) : ℕ :=
  coinFlip r (3 * line_num) + coinFlip r (3 * line_num + 1) + coinFlip r (3 * line_num + 2)

/-- The body of the `for line_num in range(6)` loop of `cast_coins`
(lines 51-63): append the line value, and the 1-based line number when
the total is 6 or 9. -/
def coinStep (r : ℕ → ℕ) (acc : List ℕ × List ℕ) (line_num : ℕ) : List ℕ × List ℕ :=
  let total := coinTotal r line_num
  if total = 6 then (acc.1 ++ [0], acc.2 ++ [line_num + 1])
  else if total = 7 then (acc.1 ++ [1], acc.2)
  else if total = 8 then (acc.1 ++ [0], acc.2)
  else if total = 9 then (acc.1 ++ [1], acc.2 ++ [line_num + 1])
  else acc

/-- `IChingCaster.cast_coins` (lines 45-66): six lines by the three-coin
method, then `hexagram_lines.reverse()`. -/
def cast_coins (r : ℕ → ℕ) : List ℕ × List ℕ :=
  let acc := (List.range 6).foldl (coinStep r) ([], [])
  (acc.1.reverse, acc.2)

/-- One division of the yarrow-stalk loop (lines 80-91): remove the hung
stalk, split the rest into two nonempty groups, and sum the two
remainders modulo 4 (a remainder of 0 counting as 4).  `pool` is the
stalk count at the top of the division, `v` the stream draw behind
`random.randint(1, stalks - 1)`. -/
def divRemainder (pool : ℕ) (v : ℕ) : ℕ :=
  let stalks := pool - 1
  let group1 := if stalks > 1 then 1 + v % (stalks - 1) else 1
  let group2 := stalks - group1
  let remainder1 := if group1 % 4 = 0 then 4 else group1 % 4
  let remainder2 := if group2 % 4 = 0 then 4 else group2 % 4
  remainder1 + remainder2

/-- `stalks = stalks - remainder` after a division (line 94), counting the
hung stalk removed at line 80. -/
def nextPool (pool : ℕ) (v : ℕ) : ℕ := (pool - 1) - divRemainder pool v

/-- `line_value = (remainder == 4) * 2 + (remainder == 8) * 3` (line 96),
Python booleans multiplying as 0/1. -/
def lineValueOf (remainder : ℕ) : ℕ :=
  (if remainder = 4 then 1 else 0) * 2 + (if remainder = 8 then 1 else 0) * 3

/-- The `for division in range(3)` loop of one yarrow line (lines 76-96):
the state is (stalk pool, line_value), starting at (50, 0); only
division 2 writes `line_value`. -/
def yarrowLine (r : ℕ → ℕ) (line_position : ℕ) : ℕ × ℕ :=
  (List.range 3).foldl
    (fun acc division =>
      (nextPool acc.1 (r (3 * line_position + division)),
       if division = 2 then lineValueOf (divRemainder acc.1 (r (3 * line_position + division)))
       else acc.2))
    (50, 0)

/-- The remainder sum computed on the third (determining) division of a
yarrow line: the pool has gone 50 → `nextPool 50 _` → `nextPool _ _`. -/
def thirdRemainder (r : ℕ → ℕ) (line_position : ℕ) : ℕ :=
  divRemainder (nextPool (nextPool 50 (r (3 * line_position))) (r (3 * line_position + 1)))
    (r (3 * line_position + 2))

/-- The body of the `for line_position in range(6)` loop of
`cast_yarrow_stalks` (lines 98-108): append by the accumulated line
value, changing lines recorded as `6 - line_position`. -/
def yarrowStep (r : ℕ → ℕ) (acc : List ℕ × List ℕ) (line_position : ℕ) : List ℕ × List ℕ :=
  let line_value := (yarrowLine r line_position).2
  if line_value = 6 then (acc.1 ++ [0], acc.2 ++ [6 - line_position])
  else if line_value = 7 then (acc.1 ++ [1], acc.2)
  else if line_value = 8 then (acc.1 ++ [0], acc.2)
  else if line_value = 9 then (acc.1 ++ [1], acc.2 ++ [6 - line_position])
  else acc

/-- `IChingCaster.cast_yarrow_stalks` (lines 68-115): six yarrow lines,
then `hexagram_lines.reverse()` and
`changing_lines = [7 - line for line in changing_lines] if changing_lines else []`. -/
def cast_yarrow_stalks (r : ℕ → ℕ) : List ℕ × List ℕ :=
  let acc := (List.range 6).foldl (yarrowStep r) ([], [])
  let hexagram_lines := acc.1.reverse
  let changing_lines := if acc.2 ≠ [] then acc.2.map (fun line => 7 - line) else []
  (hexagram_lines, changing_lines)

/-- The `trigrams` dictionary of `get_trigram_symbols` (lines 121-130)
with its `.get(_, "?")` default. -/
def trigramsGet (t : String) : Char :=
  if t = "111" then '☰'
  else if t = "110" then '☱'
  else if t = "101" then '☲'
  else if t = "100" then '☳'
  else if t = "011" then '☴'
  else if t = "010" then '☵'
  else if t = "001" then '☶'
  else if t = "000" then '☷'
  else '?'

/-- `IChingCaster.get_trigram_symbols` (lines 117-142): the lower trigram
is `binary_str[3:]`, the upper `binary_str[:3]`; the pair returned is
(lower_symbol, upper_symbol), and a string of length ≠ 6 gives ("?", "?"). -/
def get_trigram_symbols (binary_str : String) : Char × Char :=
  if binary_str.length = 6 then
    (trigramsGet (binary_str.drop 3), trigramsGet (binary_str.take 3))
  else ('?', '?')

end IChingCaster

/-- `''.join(['1' if x == 1 else '0' for x in hexagram_lines])`
(lines 1566 and 1600). -/
def toBinary (lines : List ℕ) : String :=
  String.mk (lines.map (fun x => if x = 1 then '1' else '0'))

namespace MagicSquareGenerator

/-- 3x3 Saturn square (lines 857-864). -/
def generate_saturn_square : List (List ℕ) :=
  [[4, 9, 2],
   [3, 5, 7],
   [8, 1, 6]]

/-- 4x4 Jupiter square (lines 866-874). -/
def generate_jupiter_square : List (List ℕ) :=
  [[4, 14, 15, 1],
   [9, 7, 6, 12],
   [5, 11, 10, 8],
   [16, 2, 3, 13]]

/-- 5x5 Mars square (lines 876-885). -/
def generate_mars_square : List (List ℕ) :=
  [[11, 24, 7, 20, 3],
   [4, 12, 25, 8, 16],
   [17, 5, 13, 21, 9],
   [10, 18, 1, 14, 22],
   [23, 6, 19, 2, 15]]

/-- 6x6 Sun square (lines 887-897). -/
def generate_sun_square : List (List ℕ) :=
  [[6, 32, 3, 34, 35, 1],
   [7, 11, 27, 28, 8, 30],
   [19, 14, 16, 15, 23, 24],
   [18, 20, 22, 21, 17, 13],
   [25, 29, 10, 9, 26, 12],
   [36, 5, 33, 4, 2, 31]]

/-- 7x7 Venus square (lines 899-910). -/
def generate_venus_square : List (List ℕ) :=
  [[22, 47, 16, 41, 10, 35, 4],
   [5, 23, 48, 17, 42, 11, 29],
   [30, 6, 24, 49, 18, 36, 12],
   [13, 31, 7, 25, 43, 19, 37],
   [38, 14, 32, 1, 26, 44, 20],
   [21, 39, 8, 33, 2, 27, 45],
   [46, 15, 40, 9, 34, 3, 28]]

/-- 8x8 Mercury square (lines 912-924). -/
def generate_mercury_square : List (List ℕ) :=
  [[8, 58, 59, 5, 4, 62, 63, 1],
   [49, 15, 14, 52, 53, 11, 10, 56],
   [41, 23, 22, 44, 45, 19, 18, 48],
   [32, 34, 35, 29, 28, 38, 39, 25],
   [40, 26, 27, 37, 36, 30, 31, 33],
   [17, 47, 46, 20, 21, 43, 42, 24],
   [9, 55, 54, 12, 13, 51, 50, 16],
   [64, 2, 3, 61, 60, 6, 7, 57]]

/-- 9x9 Moon square (lines 926-939). -/
def generate_moon_square : List (List ℕ) :=
  [[37, 78, 29, 70, 21, 62, 13, 54, 5],
   [6, 38, 79, 30, 71, 22, 63, 14, 46],
   [47, 7, 39, 80, 31, 72, 23, 55, 15],
   [16, 48, 8, 40, 81, 32, 64, 24, 56],
   [57, 17, 49, 9, 41, 73, 33, 65, 25],
   [26, 58, 18, 50, 1, 42, 74, 34, 66],
   [67, 27, 59, 10, 51, 2, 43, 75, 35],
   [36, 68, 19, 60, 11, 52, 3, 44, 76],
   [77, 28, 69, 20, 61, 12, 53, 4, 45]]

/-- `MagicSquareGenerator.get_square_by_planet` (lines 941-959): the
`planet_squares` dictionary lookup, any other name defaulting to the
Saturn square with size 3. -/
def get_square_by_planet (planet_name : String) : List (List ℕ) × ℕ :=
  if planet_name = "Saturn" then (generate_saturn_square, 3)
  else if planet_name = "Jupiter" then (generate_jupiter_square, 4)
  else if planet_name = "Mars" then (generate_mars_square, 5)
  else if planet_name = "Sun" then (generate_sun_square, 6)
  else if planet_name = "Venus" then (generate_venus_square, 7)
  else if planet_name = "Mercury" then (generate_mercury_square, 8)
  else if planet_name = "Moon" then (generate_moon_square, 9)
  else (generate_saturn_square, 3)

end MagicSquareGenerator

namespace QuadrupleGoddessSystem

/-- One changing line applied to the secondary hexagram (lines 1595-1598):
`idx = 6 - line_num`, flip `secondary_lines[idx]` when `0 <= idx < len`. -/
def flipOne (secondary_lines : List ℕ) (line_num : ℕ) : List ℕ :=
  let idx : ℤ := 6 - (line_num : ℤ)
  if 0 ≤ idx ∧ idx < (secondary_lines.length : ℤ) then
    secondary_lines.set idx.toNat (if secondary_lines.getD idx.toNat 0 = 0 then 1 else 0)
  else secondary_lines

/-- The `for line_num in changing_lines` loop of lines 1595-1598. -/
def applyChangingLines (lines : List ℕ) (changing : List ℕ) : List ℕ :=
  changing.foldl flipOne lines

/-- The dictionary `QuadrupleGoddessSystem.cast_iching_traditional` builds
(lines 1581-1611), restricted to the computed fields; the external
hexagram-lookup data (`primary`, `secondary` judgment records) is opaque
collaborator data and is not modelled. -/
structure CastResult where
  binary : String
  lines : List ℕ
  changing_lines : List ℕ
  trigram_lower : Char
  trigram_upper : Char
  secondary_binary : Option String
  secondary_trigram_lower : Option Char
  secondary_trigram_upper : Option Char
deriving DecidableEq

/-- The method dispatch of `cast_iching_traditional` (lines 1553-1560):
`coins`, `yarrow`, or the inline random method
`[random.randint(0, 1) for _ in range(6)]` with no changing lines. -/
def castLines (method : String) (r : ℕ → ℕ) : List ℕ × List ℕ :=
  if method = "coins" then IChingCaster.cast_coins r
  else if method = "yarrow" then IChingCaster.cast_yarrow_stalks r
  else ((List.range 6).map (fun k => r k % 2), [])

/-- Lines 1563-1564: a line list shorter than 6 is extended with
independent uniform random bits. -/
def extendLines (hexagram_lines : List ℕ) (rext : ℕ → ℕ) : List ℕ :=
  if hexagram_lines.length < 6 then
    hexagram_lines ++ (List.range (6 - hexagram_lines.length)).map (fun k => rext k % 2)
  else hexagram_lines

/-- `QuadrupleGoddessSystem.cast_iching_traditional` (lines 1551-1613).
`r` drives the chosen casting method (the `random.randint(0, 1)` of the
inline random method included), `rext` the
`hexagram_lines.extend([random.randint(0, 1) ...])` patch of line 1564. -/
def cast_iching_traditional (method : String) (r rext : ℕ → ℕ) : CastResult :=
  let cast := castLines method r
  let changing_lines := cast.2
  let hexagram_lines' := extendLines cast.1 rext
  let hexagram_binary := toBinary hexagram_lines'
  let trig := IChingCaster.get_trigram_symbols hexagram_binary
  if changing_lines ≠ [] then
    let secondary_lines := applyChangingLines hexagram_lines' changing_lines
    let secondary_binary := toBinary secondary_lines
    let strig := IChingCaster.get_trigram_symbols secondary_binary
    { binary := hexagram_binary, lines := hexagram_lines',
      changing_lines := changing_lines,
      trigram_lower := trig.1, trigram_upper := trig.2,
      secondary_binary := some secondary_binary,
      secondary_trigram_lower := some strig.1,
      secondary_trigram_upper := some strig.2 }
  else
    { binary := hexagram_binary, lines := hexagram_lines',
      changing_lines := changing_lines,
      trigram_lower := trig.1, trigram_upper := trig.2,
      secondary_binary := none,
      secondary_trigram_lower := none,
      secondary_trigram_upper := none }

/-- `square[i][j] = v` on the list-of-rows square (line 2345); the
positions are ints in Python, kept as ℤ here. -/
def setCell (sq : List (List ℕ)) (i j : ℤ) (v : ℕ) : List (List ℕ) :=
  sq.set i.toNat ((sq.getD i.toNat []).set j.toNat v)

/-- `square[i][j]` read (line 2347 tests its truthiness). -/
def getCell (sq : List (List ℕ)) (i j : ℤ) : ℕ :=
  (sq.getD i.toNat []).getD j.toNat 0

/-- The `for num in range(1, size*size + 1)` loop of the Siamese method
(lines 2344-2350), `fuel` counting the numbers still to place: place
`num` at (i, j), step diagonally up-right modulo `n`, and on an occupied
target move one row down from the current cell instead. -/
def siameseGo (n : ℕ) : ℕ → ℕ → List (List ℕ) → ℤ → ℤ → List (List ℕ)
  | 0, _, sq, _, _ => sq
  | fuel + 1, num, sq, i, j =>
    let sq' := setCell sq i j num
    let new_i : ℤ := (i - 1) % (n : ℤ)
    let new_j : ℤ := (j + 1) % (n : ℤ)
    if getCell sq' new_i new_j ≠ 0 then
      siameseGo n fuel (num + 1) sq' ((i + 1) % (n : ℤ)) j
    else
      siameseGo n fuel (num + 1) sq' new_i new_j

/-- `QuadrupleGoddessSystem.generate_custom_square` (lines 2337-2359):
Siamese method for odd sizes starting at `(0, size // 2)`; for even sizes
the sequential row-major fill `square[i][j] = i*size + j + 1`. -/
def generate_custom_square (size : ℕ) : List (List ℕ) :=
  let square := List.replicate size (List.replicate size (0 : ℕ))
  if size % 2 = 1 then
    siameseGo size (size * size) 1 square 0 ((size / 2 : ℕ) : ℤ)
  else
    (List.range size).map (fun i => (List.range size).map (fun j => size * i + j + 1))

end QuadrupleGoddessSystem

/-! ### The magic-square predicate (§3 and §8 of the spec) -/

/-- Cell (i, j) of a list-of-rows square, 0 outside. -/
def sqGet (sq : List (List ℕ)) (i j : ℕ) : ℕ := (sq.getD i []).getD j 0

/-- The magic constant N·(N²+1)/2. -/
def magicConstant (n : ℕ) : ℕ := n * (n * n + 1) / 2

/-- Sum of row i. -/
def rowSum (sq : List (List ℕ)) (n i : ℕ) : ℕ :=
  ((List.range n).map (fun j => sqGet sq i j)).sum

/-- Sum of column j. -/
def colSum (sq : List (List ℕ)) (n j : ℕ) : ℕ :=
  ((List.range n).map (fun i => sqGet sq i j)).sum

/-- Sum of the main diagonal. -/
def diagSum (sq : List (List ℕ)) (n : ℕ) : ℕ :=
  ((List.range n).map (fun i => sqGet sq i i)).sum

/-- Sum of the main antidiagonal. -/
def antiDiagSum (sq : List (List ℕ)) (n : ℕ) : ℕ :=
  ((List.range n).map (fun i => sqGet sq i (n - 1 - i))).sum

/-- An n×n matrix of the integers 1..n², each exactly once (cells bounded,
no two cells equal, every value hit), with every row, column and both
main diagonals summing to the magic constant. -/
abbrev isMagicSquare (sq : List (List ℕ)) (n : ℕ) : Prop :=
  sq.length = n ∧
  (∀ row ∈ sq, row.length = n) ∧
  (∀ i < n, ∀ j < n, 1 ≤ sqGet sq i j ∧ sqGet sq i j ≤ n * n) ∧
  (∀ p < n * n, ∀ p' < n * n,
    sqGet sq (p / n) (p % n) = sqGet sq (p' / n) (p' % n) → p = p') ∧
  (∀ v < n * n, ∃ i < n, ∃ j < n, sqGet sq i j = v + 1) ∧
  (∀ i < n, rowSum sq n i = magicConstant n) ∧
  (∀ j < n, colSum sq n j = magicConstant n) ∧
  diagSum sq n = magicConstant n ∧
  antiDiagSum sq n = magicConstant n

/-! ### Closed form of the Siamese square -/

/-- Block index of cell (i, j) of the odd-order Siamese square:
q ≡ i + j − n/2 (mod n). -/
def siaQ (n i j : ℕ) : ℕ := (i + j + (n + 1) / 2) % n

/-- Index within the block: r ≡ i + 2j + 1 (mod n). -/
def siaR (n i j : ℕ) : ℕ := (i + 2 * j + 1) % n

/-- The value the Siamese method places at (i, j): n·q + r + 1. -/
def siaEntry (n i j : ℕ) : ℕ := n * siaQ n i j + siaR n i j + 1

/-- Row of the cell receiving number q·n + r + 1: i ≡ 2q − r (mod n). -/
def siaPosI (n q r : ℕ) : ℕ := (2 * q + (n - r)) % n

/-- Column of the cell receiving number q·n + r + 1: j ≡ n/2 − q + r (mod n). -/
def siaPosJ (n q r : ℕ) : ℕ := (n / 2 + (n - q) + r) % n

/-- The square after the first k numbers are placed: cell (i, j) holds
its final value when that value is ≤ k, else still 0. -/
def siaSquare (n k : ℕ) : List (List ℕ) :=
  (List.range n).map (fun i => (List.range n).map
    (fun j => if siaEntry n i j ≤ k then siaEntry n i j else 0))

/-! ### Lemmas and claim theorems -/

set_option maxRecDepth 100000 in
/-- C8: each of the seven fixed planetary squares (3×3 Saturn through
9×9 Moon) is an N×N matrix of the distinct integers 1..N² whose row,
column and both main diagonal sums all equal N·(N²+1)/2. -/
theorem fixed_planetary_squares_magic :
    isMagicSquare MagicSquareGenerator.generate_saturn_square 3 ∧
    isMagicSquare MagicSquareGenerator.generate_jupiter_square 4 ∧
    isMagicSquare MagicSquareGenerator.generate_mars_square 5 ∧
    isMagicSquare MagicSquareGenerator.generate_sun_square 6 ∧
    isMagicSquare MagicSquareGenerator.generate_venus_square 7 ∧
    isMagicSquare MagicSquareGenerator.generate_mercury_square 8 ∧
    isMagicSquare MagicSquareGenerator.generate_moon_square 9 := by
  refine ⟨?_, ?_, ?_, ?_, ?_, ?_, ?_⟩ <;> decide

/-- C10: `get_square_by_planet` returns each recognized planet's fixed
square with its dimension — Saturn in particular gives the concrete
3×3 Lo Shu matrix with size 3 and magic constant 15 — and every
unrecognized planet name falls back to the Saturn square with size 3. -/
theorem square_by_planet_lookup (planet_name : String)
    (h : planet_name ∉ ["Saturn", "Jupiter", "Mars", "Sun", "Venus", "Mercury", "Moon"]) :
    MagicSquareGenerator.get_square_by_planet "Saturn" =
      (MagicSquareGenerator.generate_saturn_square, 3) ∧
    MagicSquareGenerator.get_square_by_planet "Jupiter" =
      (MagicSquareGenerator.generate_jupiter_square, 4) ∧
    MagicSquareGenerator.get_square_by_planet "Mars" =
      (MagicSquareGenerator.generate_mars_square, 5) ∧
    MagicSquareGenerator.get_square_by_planet "Sun" =
      (MagicSquareGenerator.generate_sun_square, 6) ∧
    MagicSquareGenerator.get_square_by_planet "Venus" =
      (MagicSquareGenerator.generate_venus_square, 7) ∧
    MagicSquareGenerator.get_square_by_planet "Mercury" =
      (MagicSquareGenerator.generate_mercury_square, 8) ∧
    MagicSquareGenerator.get_square_by_planet "Moon" =
      (MagicSquareGenerator.generate_moon_square, 9) ∧
    MagicSquareGenerator.get_square_by_planet "Saturn" =
      ([[4, 9, 2], [3, 5, 7], [8, 1, 6]], 3) ∧
    magicConstant 3 = 15 ∧
    MagicSquareGenerator.get_square_by_planet planet_name =
      (MagicSquareGenerator.generate_saturn_square, 3) := by
  simp only [List.mem_cons, List.not_mem_nil, or_false, not_or] at h
  obtain ⟨h1, h2, h3, h4, h5, h6, h7⟩ := h
  refine ⟨rfl, rfl, rfl, rfl, rfl, rfl, rfl, rfl, rfl, ?_⟩
  simp [MagicSquareGenerator.get_square_by_planet, h1, h2, h3, h4, h5, h6, h7]

/-- Instantiation of `square_by_planet_lookup` at the unrecognized
planet name "Pluto". -/
theorem square_by_planet_lookup_witness :
    "Pluto" ∉ ["Saturn", "Jupiter", "Mars", "Sun", "Venus", "Mercury", "Moon"] ∧
    MagicSquareGenerator.get_square_by_planet "Pluto" =
      (MagicSquareGenerator.generate_saturn_square, 3) :=
  ⟨by decide, (square_by_planet_lookup "Pluto" (by decide)).2.2.2.2.2.2.2.2.2⟩

/-- Each simulated coin shows 2 (tails) or 3 (heads). -/
theorem coinFlip_cases (r : ℕ → ℕ) (k : ℕ) :
    IChingCaster.coinFlip r k = 2 ∨ IChingCaster.coinFlip r k = 3 := by
  unfold IChingCaster.coinFlip
  by_cases h : r k % 2 = 1 <;> simp [h]

/-- A three-coin total lies between 6 and 9. -/
theorem coinTotal_bounds (r : ℕ → ℕ) (i : ℕ) :
    6 ≤ IChingCaster.coinTotal r i ∧ IChingCaster.coinTotal r i ≤ 9 := by
  unfold IChingCaster.coinTotal
  rcases coinFlip_cases r (3 * i) with h1 | h1 <;>
    rcases coinFlip_cases r (3 * i + 1) with h2 | h2 <;>
      rcases coinFlip_cases r (3 * i + 2) with h3 | h3 <;>
        omega

/-- The coin loop in closed form: the values are the totals modulo 2 in
casting order, the changing lines the 1-based positions whose total is
6 or 9. -/
theorem coins_foldl (r : ℕ → ℕ) (l : List ℕ) (a b : List ℕ) :
    l.foldl (IChingCaster.coinStep r) (a, b) =
      (a ++ l.map (fun i => IChingCaster.coinTotal r i % 2),
       b ++ l.filterMap (fun i =>
         if IChingCaster.coinTotal r i = 6 ∨ IChingCaster.coinTotal r i = 9 then
           some (i + 1) else none)) := by
  induction l generalizing a b with
  | nil => simp
  | cons x xs ih =>
    have hb := coinTotal_bounds r x
    have hx : IChingCaster.coinTotal r x = 6 ∨ IChingCaster.coinTotal r x = 7 ∨
        IChingCaster.coinTotal r x = 8 ∨ IChingCaster.coinTotal r x = 9 := by omega
    simp only [List.foldl_cons, List.map_cons, List.filterMap_cons]
    rcases hx with h | h | h | h <;>
      simp [IChingCaster.coinStep, h, ih]

/-- `cast_coins` in closed form. -/
theorem cast_coins_eq (r : ℕ → ℕ) :
    IChingCaster.cast_coins r =
      (((List.range 6).map (fun i => IChingCaster.coinTotal r i % 2)).reverse,
       (List.range 6).filterMap (fun i =>
         if IChingCaster.coinTotal r i = 6 ∨ IChingCaster.coinTotal r i = 9 then
           some (i + 1) else none)) := by
  unfold IChingCaster.cast_coins
  rw [coins_foldl]
  simp

/-- Membership in the coin method's changing-line list. -/
theorem coins_changing_mem (r : ℕ → ℕ) (i : ℕ) (h : i < 6) :
    (i + 1) ∈ (IChingCaster.cast_coins r).2 ↔
      (IChingCaster.coinTotal r i = 6 ∨ IChingCaster.coinTotal r i = 9) := by
  rw [cast_coins_eq]
  simp only [List.mem_filterMap, List.mem_range]
  constructor
  · rintro ⟨a, ha, hif⟩
    by_cases hp : IChingCaster.coinTotal r a = 6 ∨ IChingCaster.coinTotal r a = 9
    · rw [if_pos hp, Option.some_inj] at hif
      have : a = i := by omega
      exact this ▸ hp
    · rw [if_neg hp] at hif
      exact absurd hif (by simp)
  · intro hp
    exact ⟨i, h, by rw [if_pos hp]⟩

/-- The coin line value in casting order is the total modulo 2. -/
theorem coins_value_at (r : ℕ → ℕ) (i : ℕ) (h : i < 6) :
    (IChingCaster.cast_coins r).1.reverse.getD i 0 = IChingCaster.coinTotal r i % 2 := by
  rw [cast_coins_eq]
  simp only [List.reverse_reverse]
  have hlen : i < ((List.range 6).map fun i => IChingCaster.coinTotal r i % 2).length := by
    simpa using h
  rw [List.getD_eq_getElem _ _ hlen, List.getElem_map, List.getElem_range]

/-- C4: every coin-method line total lies in {6,7,8,9}; 6 gives a yin
line (0) recorded as changing, 7 a stable yang (1), 8 a stable yin (0),
9 a changing yang (1) — totals 6 and 9 are always recorded as changing
and totals 7 and 8 never are. -/
theorem coin_line_values (r : ℕ → ℕ) (i : ℕ) (h : i < 6) :
    (6 ≤ IChingCaster.coinTotal r i ∧ IChingCaster.coinTotal r i ≤ 9) ∧
    (IChingCaster.coinTotal r i = 6 →
      (IChingCaster.cast_coins r).1.reverse.getD i 0 = 0 ∧
      (i + 1) ∈ (IChingCaster.cast_coins r).2) ∧
    (IChingCaster.coinTotal r i = 7 →
      (IChingCaster.cast_coins r).1.reverse.getD i 0 = 1 ∧
      (i + 1) ∉ (IChingCaster.cast_coins r).2) ∧
    (IChingCaster.coinTotal r i = 8 →
      (IChingCaster.cast_coins r).1.reverse.getD i 0 = 0 ∧
      (i + 1) ∉ (IChingCaster.cast_coins r).2) ∧
    (IChingCaster.coinTotal r i = 9 →
      (IChingCaster.cast_coins r).1.reverse.getD i 0 = 1 ∧
      (i + 1) ∈ (IChingCaster.cast_coins r).2) := by
  refine ⟨coinTotal_bounds r i, ?_, ?_, ?_, ?_⟩ <;> intro ht <;>
    rw [coins_value_at r i h, coins_changing_mem r i h, ht] <;> simp

/-- Instantiation of `coin_line_values` at the all-tails stream (every
draw even, so every coin contributes 2 and every total is 6). -/
theorem coin_line_values_witness :
    (0 : ℕ) < 6 ∧
    ((6 ≤ IChingCaster.coinTotal (fun _ => 0) 0 ∧ IChingCaster.coinTotal (fun _ => 0) 0 ≤ 9) ∧
    (IChingCaster.coinTotal (fun _ => 0) 0 = 6 →
      (IChingCaster.cast_coins (fun _ => 0)).1.reverse.getD 0 0 = 0 ∧
      (0 + 1) ∈ (IChingCaster.cast_coins (fun _ => 0)).2) ∧
    (IChingCaster.coinTotal (fun _ => 0) 0 = 7 →
      (IChingCaster.cast_coins (fun _ => 0)).1.reverse.getD 0 0 = 1 ∧
      (0 + 1) ∉ (IChingCaster.cast_coins (fun _ => 0)).2) ∧
    (IChingCaster.coinTotal (fun _ => 0) 0 = 8 →
      (IChingCaster.cast_coins (fun _ => 0)).1.reverse.getD 0 0 = 0 ∧
      (0 + 1) ∉ (IChingCaster.cast_coins (fun _ => 0)).2) ∧
    (IChingCaster.coinTotal (fun _ => 0) 0 = 9 →
      (IChingCaster.cast_coins (fun _ => 0)).1.reverse.getD 0 0 = 1 ∧
      (0 + 1) ∈ (IChingCaster.cast_coins (fun _ => 0)).2)) :=
  ⟨by decide, coin_line_values (fun _ => 0) 0 (by decide)⟩

set_option maxRecDepth 10000 in
/-- C6: with the random source fixed to all heads (every draw odd, so
each coin contributes 3) the coin method totals 9 on every line: all six
lines are yang and changing, the primary binary key is "111111" and the
secondary (all lines flipped) is "000000". -/
theorem coins_all_heads_scenario (rext : ℕ → ℕ) :
    (∀ k, IChingCaster.coinTotal (fun _ => 1) k = 9) ∧
    QuadrupleGoddessSystem.cast_iching_traditional "coins" (fun _ => 1) rext =
      { binary := "111111", lines := [1, 1, 1, 1, 1, 1],
        changing_lines := [1, 2, 3, 4, 5, 6],
        trigram_lower := '☰', trigram_upper := '☰',
        secondary_binary := some "000000",
        secondary_trigram_lower := some '☷',
        secondary_trigram_upper := some '☷' } := by
  constructor
  · intro k
    simp [IChingCaster.coinTotal, IChingCaster.coinFlip]
  · have hc : IChingCaster.cast_coins (fun _ => 1) = ([1, 1, 1, 1, 1, 1], [1, 2, 3, 4, 5, 6]) := by
      decide
    have hcl : QuadrupleGoddessSystem.castLines "coins" (fun _ => 1) =
        ([1, 1, 1, 1, 1, 1], [1, 2, 3, 4, 5, 6]) := by
      unfold QuadrupleGoddessSystem.castLines
      rw [if_pos rfl, hc]
    have he : QuadrupleGoddessSystem.extendLines [1, 1, 1, 1, 1, 1] rext = [1, 1, 1, 1, 1, 1] :=
      rfl
    simp only [QuadrupleGoddessSystem.cast_iching_traditional, hcl, he]
    decide

/-- One yarrow division with at least 3 stalks in the pool: the remainder
sum is between 2 and 8 and is congruent modulo 4 to the pool left after
removing the hung stalk. -/
theorem divRemainder_spec (pool v : ℕ) (h : 3 ≤ pool) :
    2 ≤ IChingCaster.divRemainder pool v ∧ IChingCaster.divRemainder pool v ≤ 8 ∧
    IChingCaster.divRemainder pool v % 4 = (pool - 1) % 4 := by
  have hst : pool - 1 > 1 := by omega
  simp only [IChingCaster.divRemainder]
  rw [if_pos hst]
  have hwlt : v % (pool - 1 - 1) < pool - 1 - 1 := Nat.mod_lt _ (by omega)
  generalize v % (pool - 1 - 1) = w at hwlt
  by_cases h1 : (1 + w) % 4 = 0 <;>
    by_cases h2 : (pool - 1 - (1 + w)) % 4 = 0 <;>
      simp only [if_pos, if_neg, h1, h2, if_true, if_false] <;>
        omega

/-- The third yarrow division always produces a remainder sum of 3 or 7:
the pool is 49 after the first hung stalk, so the first division removes
exactly 5, leaving 44; the second removes 3 or 7 of 43, leaving 40 or
36; and 39 or 35 is again 3 modulo 4. -/
theorem thirdRemainder_cases (r : ℕ → ℕ) (lp : ℕ) :
    IChingCaster.thirdRemainder r lp = 3 ∨ IChingCaster.thirdRemainder r lp = 7 := by
  unfold IChingCaster.thirdRemainder
  have h0 := divRemainder_spec 50 (r (3 * lp)) (by omega)
  have hp1 : IChingCaster.nextPool 50 (r (3 * lp)) = 44 := by
    unfold IChingCaster.nextPool
    omega
  rw [hp1]
  have h1 := divRemainder_spec 44 (r (3 * lp + 1)) (by omega)
  have hp2 : IChingCaster.nextPool 44 (r (3 * lp + 1)) =
      43 - IChingCaster.divRemainder 44 (r (3 * lp + 1)) := rfl
  rw [hp2]
  have h2 := divRemainder_spec (43 - IChingCaster.divRemainder 44 (r (3 * lp + 1)))
    (r (3 * lp + 2)) (by omega)
  omega

/-- The yarrow line value is `lineValueOf` of the third-division
remainder. -/
theorem yarrowLine_snd (r : ℕ → ℕ) (lp : ℕ) :
    (IChingCaster.yarrowLine r lp).2 = IChingCaster.lineValueOf (IChingCaster.thirdRemainder r lp) :=
  rfl

/-- The yarrow line value is always 0: the third-division remainder is
never 4 or 8. -/
theorem yarrowLine_value_zero (r : ℕ → ℕ) (lp : ℕ) :
    (IChingCaster.yarrowLine r lp).2 = 0 := by
  rw [yarrowLine_snd]
  rcases thirdRemainder_cases r lp with h | h <;>
    simp [h, IChingCaster.lineValueOf]

/-- With every line value 0, the yarrow loop body never appends. -/
theorem yarrowStep_id (r : ℕ → ℕ) (acc : List ℕ × List ℕ) (lp : ℕ) :
    IChingCaster.yarrowStep r acc lp = acc := by
  unfold IChingCaster.yarrowStep
  rw [yarrowLine_value_zero]
  simp

/-- `cast_yarrow_stalks` always returns an empty hexagram and an empty
changing-line list. -/
theorem cast_yarrow_stalks_empty (r : ℕ → ℕ) :
    IChingCaster.cast_yarrow_stalks r = ([], []) := by
  unfold IChingCaster.cast_yarrow_stalks
  have hfold : ∀ (l : List ℕ) (acc : List ℕ × List ℕ),
      l.foldl (IChingCaster.yarrowStep r) acc = acc := by
    intro l
    induction l with
    | nil => intro acc; rfl
    | cons x xs ih =>
      intro acc
      rw [List.foldl_cons, yarrowStep_id, ih]
  rw [hfold]
  simp

/-- C1 (code bug): on every random stream and every line, the remainder
sum of the determining third division is 3 or 7 — never the 4 or 8 the
spec states — so the accumulated line value is always 0 and never
reaches {6,7,8,9}. -/
theorem yarrow_third_division_values (r : ℕ → ℕ) (line_position : ℕ) :
    (IChingCaster.thirdRemainder r line_position = 3 ∨
     IChingCaster.thirdRemainder r line_position = 7) ∧
    (IChingCaster.yarrowLine r line_position).2 = 0 :=
  ⟨thirdRemainder_cases r line_position, yarrowLine_value_zero r line_position⟩

/-- The `lines` and `binary` fields of `cast_iching_traditional`, read
off through the method dispatch and the length-6 extension. -/
theorem traditional_fields (method : String) (r rext : ℕ → ℕ) :
    (QuadrupleGoddessSystem.cast_iching_traditional method r rext).lines =
      QuadrupleGoddessSystem.extendLines (QuadrupleGoddessSystem.castLines method r).1 rext ∧
    (QuadrupleGoddessSystem.cast_iching_traditional method r rext).binary =
      toBinary
        (QuadrupleGoddessSystem.extendLines (QuadrupleGoddessSystem.castLines method r).1 rext) := by
  simp only [QuadrupleGoddessSystem.cast_iching_traditional]
  split <;> exact ⟨rfl, rfl⟩

/-- The random-method dispatch of `cast_iching_traditional`. -/
theorem castLines_random (r : ℕ → ℕ) :
    QuadrupleGoddessSystem.castLines "random" r = ((List.range 6).map (fun k => r k % 2), []) := by
  unfold QuadrupleGoddessSystem.castLines
  rw [if_neg (by decide), if_neg (by decide)]

/-- A list that already has 6 lines is not extended. -/
theorem extendLines_of_length_six (l : List ℕ) (rext : ℕ → ℕ) (h : l.length = 6) :
    QuadrupleGoddessSystem.extendLines l rext = l := by
  unfold QuadrupleGoddessSystem.extendLines
  rw [if_neg (by omega)]

/-- C2 (code bug): the coin method and the uniform-random method do
return 6 binary lines, but the yarrow-stalk method always returns an
empty hexagram (no line value ever matches 6, 7, 8 or 9). -/
theorem casting_hexagram_shapes (r rext : ℕ → ℕ) :
    ((IChingCaster.cast_coins r).1.length = 6 ∧
      (IChingCaster.cast_coins r).1.all (fun x => x == 0 || x == 1) = true) ∧
    ((QuadrupleGoddessSystem.cast_iching_traditional "random" r rext).lines.length = 6 ∧
      (QuadrupleGoddessSystem.cast_iching_traditional "random" r rext).lines.all
        (fun x => x == 0 || x == 1) = true) ∧
    IChingCaster.cast_yarrow_stalks r = ([], []) := by
  have hrand : (QuadrupleGoddessSystem.cast_iching_traditional "random" r rext).lines =
      (List.range 6).map (fun k => r k % 2) := by
    rw [(traditional_fields "random" r rext).1, castLines_random,
      extendLines_of_length_six _ _ (by simp)]
  refine ⟨⟨?_, ?_⟩, ⟨?_, ?_⟩, cast_yarrow_stalks_empty r⟩
  · rw [cast_coins_eq]
    simp
  · rw [cast_coins_eq]
    simp only [List.all_eq_true, List.mem_reverse, List.mem_map, List.mem_range]
    rintro x ⟨i, -, rfl⟩
    rcases Nat.mod_two_eq_zero_or_one (IChingCaster.coinTotal r i) with h | h <;>
      simp [h]
  · rw [hrand]
    simp
  · rw [hrand]
    simp only [List.all_eq_true, List.mem_map, List.mem_range]
    rintro x ⟨k, -, rfl⟩
    rcases Nat.mod_two_eq_zero_or_one (r k) with h | h <;>
      simp [h]

/-- `toBinary` has the length of its input. -/
theorem toBinary_length (l : List ℕ) : (toBinary l).length = l.length := by
  simp [toBinary, String.length]

/-- Every character of a `toBinary` string is '0' or '1'. -/
theorem toBinary_chars (l : List ℕ) :
    (toBinary l).data.all (fun c => c == '0' || c == '1') = true := by
  simp only [toBinary, List.all_eq_true, List.mem_map]
  rintro c ⟨x, -, rfl⟩
  by_cases h : x = 1 <;> simp [h]

/-- The extension of lines 1563-1564 always results in 6 lines when the
cast produced at most 6. -/
theorem extendLines_length (l : List ℕ) (rext : ℕ → ℕ) (h : l.length ≤ 6) :
    (QuadrupleGoddessSystem.extendLines l rext).length = 6 := by
  unfold QuadrupleGoddessSystem.extendLines
  split
  · simp
    omega
  · omega

/-- Every casting method hands `cast_iching_traditional` at most 6 lines
(the yarrow method hands 0). -/
theorem castLines_length_le (method : String) (r : ℕ → ℕ) :
    (QuadrupleGoddessSystem.castLines method r).1.length ≤ 6 := by
  unfold QuadrupleGoddessSystem.castLines
  split
  · rw [cast_coins_eq]
    simp
  · split
    · rw [cast_yarrow_stalks_empty]
      simp
    · simp

/-- C3: whatever casting method is named, `cast_iching_traditional`
extends a short line list with random bits before building the key, so
its `binary` field is always a string of exactly 6 characters, each
'0' or '1'. -/
theorem traditional_binary_always_six (method : String) (r rext : ℕ → ℕ) :
    (QuadrupleGoddessSystem.cast_iching_traditional method r rext).binary.length = 6 ∧
    (QuadrupleGoddessSystem.cast_iching_traditional method r rext).binary.data.all
      (fun c => c == '0' || c == '1') = true := by
  rw [(traditional_fields method r rext).2]
  exact ⟨by rw [toBinary_length, extendLines_length _ _ (castLines_length_le method r)],
    toBinary_chars _⟩

/-- Setting an entry to its own value changes nothing. -/
theorem set_getElem_self (l : List ℕ) (i : ℕ) (h : i < l.length) : l.set i (l[i]) = l := by
  apply List.ext_getElem (by simp)
  intro j h1 h2
  rw [List.getElem_set]
  split
  · rename_i hij
    subst hij
    rfl
  · rfl

/-- `flipOne` with the index in range is a `List.set` of the flipped
entry. -/
theorem flipOne_eq_set (l : List ℕ) (m : ℕ)
    (hg : 0 ≤ (6 - (m : ℤ)) ∧ (6 - (m : ℤ)) < (l.length : ℤ)) :
    QuadrupleGoddessSystem.flipOne l m =
      l.set (6 - (m : ℤ)).toNat (if l.getD (6 - (m : ℤ)).toNat 0 = 0 then 1 else 0) := by
  simp only [QuadrupleGoddessSystem.flipOne]
  rw [if_pos hg]

/-- `flipOne` with the index out of range is the identity. -/
theorem flipOne_eq_self (l : List ℕ) (m : ℕ)
    (hg : ¬(0 ≤ (6 - (m : ℤ)) ∧ (6 - (m : ℤ)) < (l.length : ℤ))) :
    QuadrupleGoddessSystem.flipOne l m = l := by
  simp only [QuadrupleGoddessSystem.flipOne]
  rw [if_neg hg]

/-- `flipOne` preserves the length. -/
theorem flipOne_length (l : List ℕ) (m : ℕ) :
    (QuadrupleGoddessSystem.flipOne l m).length = l.length := by
  by_cases hg : 0 ≤ (6 - (m : ℤ)) ∧ (6 - (m : ℤ)) < (l.length : ℤ)
  · rw [flipOne_eq_set l m hg]
    simp
  · rw [flipOne_eq_self l m hg]

/-- `flipOne` preserves binariness. -/
theorem flipOne_binary (l : List ℕ) (m : ℕ) (h : ∀ x ∈ l, x = 0 ∨ x = 1) :
    ∀ x ∈ QuadrupleGoddessSystem.flipOne l m, x = 0 ∨ x = 1 := by
  by_cases hg : 0 ≤ (6 - (m : ℤ)) ∧ (6 - (m : ℤ)) < (l.length : ℤ)
  · rw [flipOne_eq_set l m hg]
    intro x hx
    rcases List.mem_or_eq_of_mem_set hx with hx' | rfl
    · exact h x hx'
    · split <;> simp
  · rw [flipOne_eq_self l m hg]
    exact h

/-- Flipping the same changing line twice restores a binary list. -/
theorem flipOne_flipOne (l : List ℕ) (m : ℕ) (h : ∀ x ∈ l, x = 0 ∨ x = 1) :
    QuadrupleGoddessSystem.flipOne (QuadrupleGoddessSystem.flipOne l m) m = l := by
  by_cases hg : 0 ≤ (6 - (m : ℤ)) ∧ (6 - (m : ℤ)) < (l.length : ℤ)
  · have hk : (6 - (m : ℤ)).toNat < l.length := by omega
    have hget : l.getD (6 - (m : ℤ)).toNat 0 = l[(6 - (m : ℤ)).toNat] :=
      List.getD_eq_getElem l 0 hk
    rw [flipOne_eq_set l m hg]
    set w : ℕ := if l.getD (6 - (m : ℤ)).toNat 0 = 0 then 1 else 0 with hw
    have hg2 : 0 ≤ (6 - (m : ℤ)) ∧
        (6 - (m : ℤ)) < (((l.set (6 - (m : ℤ)).toNat w).length : ℕ) : ℤ) := by
      simpa using hg
    rw [flipOne_eq_set _ m hg2]
    have hget2 : (l.set (6 - (m : ℤ)).toNat w).getD (6 - (m : ℤ)).toNat 0 = w := by
      rw [List.getD_eq_getElem _ 0 (by simpa using hk), List.getElem_set, if_pos rfl]
    rw [hget2, List.set_set]
    have hval : (if w = 0 then (1 : ℕ) else 0) = l[(6 - (m : ℤ)).toNat] := by
      rcases h _ (List.getElem_mem hk) with h0 | h1
      · rw [hw, hget, h0]
        simp
      · rw [hw, hget, h1]
        simp
    rw [hval, set_getElem_self l _ hk]
  · rw [flipOne_eq_self l m hg, flipOne_eq_self l m hg]

/-- Two single-line flips commute. -/
theorem flipOne_comm (l : List ℕ) (a b : ℕ) :
    QuadrupleGoddessSystem.flipOne (QuadrupleGoddessSystem.flipOne l a) b =
      QuadrupleGoddessSystem.flipOne (QuadrupleGoddessSystem.flipOne l b) a := by
  by_cases hab : a = b
  · rw [hab]
  by_cases hga : 0 ≤ (6 - (a : ℤ)) ∧ (6 - (a : ℤ)) < (l.length : ℤ) <;>
    by_cases hgb : 0 ≤ (6 - (b : ℤ)) ∧ (6 - (b : ℤ)) < (l.length : ℤ)
  · -- both indices in range
    have hka : (6 - (a : ℤ)).toNat < l.length := by omega
    have hkb : (6 - (b : ℤ)).toNat < l.length := by omega
    have hne : (6 - (a : ℤ)).toNat ≠ (6 - (b : ℤ)).toNat := by omega
    have hgda : ∀ w : ℕ, (l.set (6 - (b : ℤ)).toNat w).getD (6 - (a : ℤ)).toNat 0 =
        l.getD (6 - (a : ℤ)).toNat 0 := by
      intro w
      rw [List.getD_eq_getElem _ 0 (by simpa using hka), List.getElem_set,
        if_neg (Ne.symm hne), List.getD_eq_getElem _ 0 hka]
    have hgdb : ∀ w : ℕ, (l.set (6 - (a : ℤ)).toNat w).getD (6 - (b : ℤ)).toNat 0 =
        l.getD (6 - (b : ℤ)).toNat 0 := by
      intro w
      rw [List.getD_eq_getElem _ 0 (by simpa using hkb), List.getElem_set,
        if_neg hne, List.getD_eq_getElem _ 0 hkb]
    rw [flipOne_eq_set l a hga, flipOne_eq_set l b hgb,
      flipOne_eq_set _ b (by simpa using hgb), flipOne_eq_set _ a (by simpa using hga),
      hgda, hgdb, List.set_comm _ _ _ hne]
  · simp only [flipOne_eq_set l a hga, flipOne_eq_self l b hgb,
      flipOne_eq_self _ b (by simpa using hgb : ¬(0 ≤ (6 - (b : ℤ)) ∧ (6 - (b : ℤ)) <
        (((l.set (6 - (a : ℤ)).toNat
          (if l.getD (6 - (a : ℤ)).toNat 0 = 0 then 1 else 0)).length : ℕ) : ℤ)))]
  · simp only [flipOne_eq_self l a hga, flipOne_eq_set l b hgb,
      flipOne_eq_self _ a (by simpa using hga : ¬(0 ≤ (6 - (a : ℤ)) ∧ (6 - (a : ℤ)) <
        (((l.set (6 - (b : ℤ)).toNat
          (if l.getD (6 - (b : ℤ)).toNat 0 = 0 then 1 else 0)).length : ℕ) : ℤ)))]
  · simp only [flipOne_eq_self l a hga, flipOne_eq_self l b hgb]

/-- A flip of one line passes through the fold over the rest. -/
theorem applyChanging_push (c : ℕ) (C : List ℕ) (l : List ℕ) :
    QuadrupleGoddessSystem.applyChangingLines (QuadrupleGoddessSystem.flipOne l c) C =
      QuadrupleGoddessSystem.flipOne (QuadrupleGoddessSystem.applyChangingLines l C) c := by
  induction C generalizing l with
  | nil => rfl
  | cons d C' ih =>
    show QuadrupleGoddessSystem.applyChangingLines
        (QuadrupleGoddessSystem.flipOne (QuadrupleGoddessSystem.flipOne l c) d) C' = _
    rw [flipOne_comm, ih]
    rfl

/-- The derivation of the secondary hexagram is an involution on binary
line lists. -/
theorem applyChanging_involution (C : List ℕ) :
    ∀ l : List ℕ, (∀ x ∈ l, x = 0 ∨ x = 1) →
      QuadrupleGoddessSystem.applyChangingLines
        (QuadrupleGoddessSystem.applyChangingLines l C) C = l := by
  induction C with
  | nil => intro l _; rfl
  | cons c C' ih =>
    intro l hbin
    show QuadrupleGoddessSystem.applyChangingLines
        (QuadrupleGoddessSystem.flipOne
          (QuadrupleGoddessSystem.applyChangingLines (QuadrupleGoddessSystem.flipOne l c) C') c)
        C' = l
    rw [← applyChanging_push, flipOne_flipOne l c hbin]
    exact ih l hbin

/-- C5: for a 6-line binary hexagram and changing lines that are distinct
numbers in [1,6], flipping line `n` at index `6 − n` to derive the
secondary hexagram and then flipping the same positions again restores
the primary exactly. -/
theorem secondary_hexagram_involution (H C : List ℕ) (hlen : H.length = 6)
    (hbin : ∀ x ∈ H, x = 0 ∨ x = 1)
    (hC : ∀ m ∈ C, 1 ≤ m ∧ m ≤ 6) (hnd : C.Nodup) :
    QuadrupleGoddessSystem.applyChangingLines
      (QuadrupleGoddessSystem.applyChangingLines H C) C = H :=
  applyChanging_involution C H hbin

/-- Instantiation of `secondary_hexagram_involution` on the hexagram
[1,0,1,0,1,0] with changing lines 1, 3 and 6. -/
theorem secondary_hexagram_involution_witness :
    ([1, 0, 1, 0, 1, 0] : List ℕ).length = 6 ∧
    (∀ x ∈ ([1, 0, 1, 0, 1, 0] : List ℕ), x = 0 ∨ x = 1) ∧
    (∀ m ∈ ([1, 3, 6] : List ℕ), 1 ≤ m ∧ m ≤ 6) ∧
    ([1, 3, 6] : List ℕ).Nodup ∧
    QuadrupleGoddessSystem.applyChangingLines
      (QuadrupleGoddessSystem.applyChangingLines [1, 0, 1, 0, 1, 0] [1, 3, 6]) [1, 3, 6] =
      [1, 0, 1, 0, 1, 0] :=
  ⟨by decide, by decide, by decide, by decide,
    secondary_hexagram_involution [1, 0, 1, 0, 1, 0] [1, 3, 6] (by decide) (by decide)
      (by decide) (by decide)⟩

set_option maxRecDepth 10000 in
/-- C9: on every 6-character '0'/'1' string, `get_trigram_symbols`
resolves characters [0:3] (upper trigram) and [3:6] (lower trigram)
through the 8-entry map, and since the map covers all 3-bit patterns,
neither returned symbol is ever the "?" sentinel. -/
theorem trigram_resolution_total (binary_str : String)
    (h6 : binary_str.length = 6)
    (hb : ∀ c ∈ binary_str.data, c = '0' ∨ c = '1') :
    IChingCaster.get_trigram_symbols binary_str =
      (IChingCaster.trigramsGet (binary_str.drop 3),
       IChingCaster.trigramsGet (binary_str.take 3)) ∧
    (IChingCaster.get_trigram_symbols binary_str).1 ≠ '?' ∧
    (IChingCaster.get_trigram_symbols binary_str).2 ≠ '?' := by
  obtain ⟨data⟩ := binary_str
  have hlen : data.length = 6 := h6
  rcases data with _ | ⟨a, _ | ⟨b, _ | ⟨c, _ | ⟨d, _ | ⟨e, _ | ⟨f, _ | ⟨g, rest⟩⟩⟩⟩⟩⟩⟩ <;>
    simp only [List.length_cons, List.length_nil] at hlen <;> try omega
  have ha := hb a (by simp)
  have hbc := hb b (by simp)
  have hc := hb c (by simp)
  have hd := hb d (by simp)
  have he := hb e (by simp)
  have hf := hb f (by simp)
  clear hb h6 hlen
  rcases ha with rfl | rfl <;> rcases hbc with rfl | rfl <;> rcases hc with rfl | rfl <;>
    rcases hd with rfl | rfl <;> rcases he with rfl | rfl <;> rcases hf with rfl | rfl <;>
      decide

/-- Instantiation of `trigram_resolution_total` at "101010". -/
theorem trigram_resolution_total_witness :
    ("101010" : String).length = 6 ∧
    (∀ c ∈ ("101010" : String).data, c = '0' ∨ c = '1') ∧
    (IChingCaster.get_trigram_symbols "101010" =
      (IChingCaster.trigramsGet (("101010" : String).drop 3),
       IChingCaster.trigramsGet (("101010" : String).take 3)) ∧
    (IChingCaster.get_trigram_symbols "101010").1 ≠ '?' ∧
    (IChingCaster.get_trigram_symbols "101010").2 ≠ '?') :=
  ⟨by decide, by decide, trigram_resolution_total "101010" (by decide) (by decide)⟩

/-! ### C7 development: mod-arithmetic identities for the Siamese closed form -/

theorem sia_mod_eq_of_cast (n a b : ℕ) (h : (a : ZMod n) = (b : ZMod n)) (hb : b < n) :
    a % n = b := by
  have h' : a % n = b % n := (ZMod.natCast_eq_natCast_iff a b n).mp h
  rw [h', Nat.mod_eq_of_lt hb]

theorem sia_posI_lt (n q r : ℕ) (hpos : 0 < n) : siaPosI n q r < n := Nat.mod_lt _ hpos

theorem sia_posJ_lt (n q r : ℕ) (hpos : 0 < n) : siaPosJ n q r < n := Nat.mod_lt _ hpos

theorem sia_Q_lt (n i j : ℕ) (hpos : 0 < n) : siaQ n i j < n := Nat.mod_lt _ hpos

theorem sia_R_lt (n i j : ℕ) (hpos : 0 < n) : siaR n i j < n := Nat.mod_lt _ hpos

theorem sia_posI_cast (n q r : ℕ) (hr : r ≤ n) :
    ((siaPosI n q r : ℕ) : ZMod n) = 2 * (q : ZMod n) - (r : ZMod n) := by
  unfold siaPosI
  rw [ZMod.natCast_mod]
  push_cast [Nat.cast_sub hr]
  rw [ZMod.natCast_self]
  ring

theorem sia_posJ_cast (n q r : ℕ) (hq : q ≤ n) :
    ((siaPosJ n q r : ℕ) : ZMod n) = ((n / 2 : ℕ) : ZMod n) - (q : ZMod n) + (r : ZMod n) := by
  unfold siaPosJ
  rw [ZMod.natCast_mod]
  push_cast [Nat.cast_sub hq]
  rw [ZMod.natCast_self]
  ring

theorem sia_Q_cast (n i j : ℕ) :
    ((siaQ n i j : ℕ) : ZMod n) = (i : ZMod n) + (j : ZMod n) + (((n + 1) / 2 : ℕ) : ZMod n) := by
  unfold siaQ
  rw [ZMod.natCast_mod]
  push_cast
  ring

theorem sia_R_cast (n i j : ℕ) :
    ((siaR n i j : ℕ) : ZMod n) = (i : ZMod n) + 2 * (j : ZMod n) + 1 := by
  unfold siaR
  rw [ZMod.natCast_mod]
  push_cast
  ring

theorem sia_mt (n : ℕ) (hodd : n % 2 = 1) :
    ((n / 2 : ℕ) : ZMod n) + (((n + 1) / 2 : ℕ) : ZMod n) = 0 := by
  have h : ((n / 2 + (n + 1) / 2 : ℕ) : ZMod n) = ((n : ℕ) : ZMod n) :=
    congrArg Nat.cast (by omega)
  push_cast at h
  rw [ZMod.natCast_self] at h
  exact h

theorem sia_2t (n : ℕ) (hodd : n % 2 = 1) :
    (2 : ZMod n) * (((n + 1) / 2 : ℕ) : ZMod n) = 1 := by
  have h : ((2 * ((n + 1) / 2) : ℕ) : ZMod n) = ((n + 1 : ℕ) : ZMod n) :=
    congrArg Nat.cast (by omega)
  push_cast at h
  rw [ZMod.natCast_self] at h
  rw [h]
  ring

theorem sia_2m (n : ℕ) (hodd : n % 2 = 1) :
    (2 : ZMod n) * ((n / 2 : ℕ) : ZMod n) + 1 = 0 := by
  have h : ((2 * (n / 2) + 1 : ℕ) : ZMod n) = ((n : ℕ) : ZMod n) :=
    congrArg Nat.cast (by omega)
  push_cast at h
  rw [ZMod.natCast_self] at h
  exact h

theorem sia_t_cast (n : ℕ) (hodd : n % 2 = 1) :
    (((n + 1) / 2 : ℕ) : ZMod n) = ((n / 2 : ℕ) : ZMod n) + 1 := by
  have h : (((n + 1) / 2 : ℕ) : ZMod n) = ((n / 2 + 1 : ℕ) : ZMod n) :=
    congrArg Nat.cast (by omega)
  push_cast at h
  exact h

theorem sia_E1Q (n q r : ℕ) (hodd : n % 2 = 1) (hq : q < n) (hr : r < n) :
    siaQ n (siaPosI n q r) (siaPosJ n q r) = q := by
  unfold siaQ
  apply sia_mod_eq_of_cast n _ q ?_ hq
  push_cast
  rw [sia_posI_cast n q r hr.le, sia_posJ_cast n q r hq.le]
  linear_combination sia_mt n hodd

theorem sia_E1R (n q r : ℕ) (hodd : n % 2 = 1) (hq : q < n) (hr : r < n) :
    siaR n (siaPosI n q r) (siaPosJ n q r) = r := by
  unfold siaR
  apply sia_mod_eq_of_cast n _ r ?_ hr
  push_cast
  rw [sia_posI_cast n q r hr.le, sia_posJ_cast n q r hq.le]
  linear_combination sia_2m n hodd

theorem sia_E2I (n i j : ℕ) (hodd : n % 2 = 1) (hi : i < n) (hj : j < n) :
    siaPosI n (siaQ n i j) (siaR n i j) = i := by
  have hpos : 0 < n := lt_of_le_of_lt (Nat.zero_le i) hi
  unfold siaPosI
  apply sia_mod_eq_of_cast n _ i ?_ hi
  push_cast [Nat.cast_sub (sia_R_lt n i j hpos).le]
  rw [ZMod.natCast_self, sia_Q_cast, sia_R_cast]
  linear_combination sia_2t n hodd

theorem sia_E2J (n i j : ℕ) (hodd : n % 2 = 1) (hi : i < n) (hj : j < n) :
    siaPosJ n (siaQ n i j) (siaR n i j) = j := by
  have hpos : 0 < n := lt_of_le_of_lt (Nat.zero_le i) hi
  unfold siaPosJ
  apply sia_mod_eq_of_cast n _ j ?_ hj
  push_cast [Nat.cast_sub (sia_Q_lt n i j hpos).le]
  rw [ZMod.natCast_self, sia_Q_cast, sia_R_cast]
  linear_combination (-1 : ZMod n) * sia_t_cast n hodd

/-- The value the closed form says sits at the cell receiving number
q·n + r + 1. -/
theorem sia_entry_pos (n q r : ℕ) (hodd : n % 2 = 1) (hq : q < n) (hr : r < n) :
    siaEntry n (siaPosI n q r) (siaPosJ n q r) = n * q + r + 1 := by
  unfold siaEntry
  rw [sia_E1Q n q r hodd hq hr, sia_E1R n q r hodd hq hr]

/-- The closed-form entries are distinct across cells. -/
theorem sia_entry_inj (n i j i' j' : ℕ) (hodd : n % 2 = 1)
    (hi : i < n) (hj : j < n) (hi' : i' < n) (hj' : j' < n)
    (h : siaEntry n i j = siaEntry n i' j') : i = i' ∧ j = j' := by
  have hpos : 0 < n := lt_of_le_of_lt (Nat.zero_le i) hi
  unfold siaEntry at h
  have hR := sia_R_lt n i j hpos
  have hR' := sia_R_lt n i' j' hpos
  have h' : n * siaQ n i j + siaR n i j = n * siaQ n i' j' + siaR n i' j' :=
    Nat.add_right_cancel h
  have hQeq : siaQ n i j = siaQ n i' j' := by
    have e1 : (n * siaQ n i j + siaR n i j) / n = siaQ n i j := by
      rw [Nat.mul_add_div hpos, Nat.div_eq_of_lt hR, Nat.add_zero]
    have e2 : (n * siaQ n i' j' + siaR n i' j') / n = siaQ n i' j' := by
      rw [Nat.mul_add_div hpos, Nat.div_eq_of_lt hR', Nat.add_zero]
    rw [← e1, ← e2, h']
  have hReq : siaR n i j = siaR n i' j' := by
    rw [hQeq] at h'
    exact Nat.add_left_cancel h'
  constructor
  · rw [← sia_E2I n i j hodd hi hj, ← sia_E2I n i' j' hodd hi' hj', hQeq, hReq]
  · rw [← sia_E2J n i j hodd hi hj, ← sia_E2J n i' j' hodd hi' hj', hQeq, hReq]

/-- Moving one step within a block: the diagonal up-right target of the
cell holding q·n + r + 1 is the cell for q·n + (r+1) + 1. -/
theorem sia_step_inblock_i (n q r : ℕ) (hodd : n % 2 = 1) (hq : q < n) (hr : r + 1 < n) :
    (siaPosI n q r + n - 1) % n = siaPosI n q (r + 1) := by
  have hpos : 0 < n := by omega
  apply sia_mod_eq_of_cast n _ _ ?_ (sia_posI_lt n q (r + 1) hpos)
  have h1 : (1 : ℕ) ≤ siaPosI n q r + n := by omega
  push_cast [Nat.cast_sub h1]
  rw [ZMod.natCast_self, sia_posI_cast n q r (by omega), sia_posI_cast n q (r + 1) (by omega)]
  push_cast
  ring

theorem sia_step_inblock_j (n q r : ℕ) (hodd : n % 2 = 1) (hq : q < n) (hr : r + 1 < n) :
    (siaPosJ n q r + 1) % n = siaPosJ n q (r + 1) := by
  have hpos : 0 < n := by omega
  apply sia_mod_eq_of_cast n _ _ ?_ (sia_posJ_lt n q (r + 1) hpos)
  push_cast
  rw [sia_posJ_cast n q r hq.le, sia_posJ_cast n q (r + 1) hq.le]
  push_cast
  ring

/-- At a block end, the diagonal up-right target of the cell holding
q·n + (n−1) + 1 is the start cell of the same block (already occupied). -/
theorem sia_step_blockend_i (n q : ℕ) (hodd : n % 2 = 1) (hq : q < n) :
    (siaPosI n q (n - 1) + n - 1) % n = siaPosI n q 0 := by
  have hpos : 0 < n := by omega
  apply sia_mod_eq_of_cast n _ _ ?_ (sia_posI_lt n q 0 hpos)
  have h1 : (1 : ℕ) ≤ siaPosI n q (n - 1) + n := by omega
  push_cast [Nat.cast_sub h1]
  rw [ZMod.natCast_self, sia_posI_cast n q (n - 1) (by omega), sia_posI_cast n q 0 (by omega)]
  push_cast [Nat.cast_sub (by omega : (1 : ℕ) ≤ n)]
  rw [ZMod.natCast_self]
  ring

theorem sia_step_blockend_j (n q : ℕ) (hodd : n % 2 = 1) (hq : q < n) :
    (siaPosJ n q (n - 1) + 1) % n = siaPosJ n q 0 := by
  have hpos : 0 < n := by omega
  apply sia_mod_eq_of_cast n _ _ ?_ (sia_posJ_lt n q 0 hpos)
  push_cast
  rw [sia_posJ_cast n q (n - 1) hq.le, sia_posJ_cast n q 0 hq.le]
  push_cast [Nat.cast_sub (by omega : (1 : ℕ) ≤ n)]
  rw [ZMod.natCast_self]
  ring

/-- After the down-move at a block end, the position is the start cell of
the next block. -/
theorem sia_step_down_i (n q : ℕ) (hodd : n % 2 = 1) (hq : q < n) :
    (siaPosI n q (n - 1) + 1) % n = siaPosI n (q + 1) 0 := by
  have hpos : 0 < n := by omega
  apply sia_mod_eq_of_cast n _ _ ?_ (sia_posI_lt n (q + 1) 0 hpos)
  push_cast
  rw [sia_posI_cast n q (n - 1) (by omega), sia_posI_cast n (q + 1) 0 (by omega)]
  push_cast [Nat.cast_sub (by omega : (1 : ℕ) ≤ n)]
  rw [ZMod.natCast_self]
  ring

theorem sia_step_down_j (n q : ℕ) (hodd : n % 2 = 1) (hq : q < n) :
    siaPosJ n q (n - 1) = siaPosJ n (q + 1) 0 := by
  have hpos : 0 < n := by omega
  have h := sia_mod_eq_of_cast n (n / 2 + (n - q) + (n - 1)) (siaPosJ n (q + 1) 0)
    ?_ (sia_posJ_lt n (q + 1) 0 hpos)
  · unfold siaPosJ
    exact h
  · have : ((siaPosJ n (q + 1) 0 : ℕ) : ZMod n) =
        ((n / 2 : ℕ) : ZMod n) - ((q : ZMod n) + 1) + 0 := by
      rw [sia_posJ_cast n (q + 1) 0 (by omega)]
      push_cast
      ring
    push_cast [Nat.cast_sub (by omega : q ≤ n), Nat.cast_sub (by omega : (1 : ℕ) ≤ n)]
    rw [ZMod.natCast_self, this]
    ring

/-- The start of the loop: number 1 goes to the top middle cell. -/
theorem sia_pos_start_i (n : ℕ) (hpos : 0 < n) : siaPosI n 0 0 = 0 := by
  unfold siaPosI
  simp

theorem sia_pos_start_j (n : ℕ) (hpos : 0 < n) : siaPosJ n 0 0 = n / 2 := by
  unfold siaPosJ
  rw [Nat.sub_zero, Nat.add_zero, Nat.add_mod_right, Nat.mod_eq_of_lt (Nat.div_lt_self hpos one_lt_two)]

/-- Bridge from the loop's ℤ arithmetic to ℕ positions: stepping up. -/
theorem sia_int_up (n a : ℕ) (hpos : 0 < n) :
    ((a : ℤ) - 1) % (n : ℤ) = (((a + n - 1) % n : ℕ) : ℤ) := by
  have h1 : ((a + n - 1 : ℕ) : ℤ) = (a : ℤ) + n - 1 := by
    push_cast [Nat.cast_sub (by omega : (1 : ℕ) ≤ a + n)]
    ring
  rw [Int.natCast_mod, h1]
  have h2 : (a : ℤ) + n - 1 = (a - 1) + n * 1 := by ring
  rw [h2, Int.add_mul_emod_self_left]

/-- Bridge from the loop's ℤ arithmetic to ℕ positions: stepping right
or down. -/
theorem sia_int_down (n a : ℕ) (hpos : 0 < n) :
    ((a : ℤ) + 1) % (n : ℤ) = (((a + 1) % n : ℕ) : ℤ) := by
  rw [Int.natCast_mod]
  push_cast
  ring_nf

/-! ### C7 development: the partially filled square as a list of rows -/

theorem sia_length (n k : ℕ) : (siaSquare n k).length = n := by
  unfold siaSquare
  simp

theorem sia_row (n k i : ℕ) (hi : i < n) :
    (siaSquare n k).getD i [] =
      (List.range n).map (fun j => if siaEntry n i j ≤ k then siaEntry n i j else 0) := by
  unfold siaSquare
  rw [List.getD_eq_getElem _ _ (by simpa using hi), List.getElem_map, List.getElem_range]

theorem sia_row_length (n k i : ℕ) (hi : i < n) :
    ((siaSquare n k).getD i []).length = n := by
  rw [sia_row n k i hi]
  simp

theorem sia_sqGet (n k i j : ℕ) (hi : i < n) (hj : j < n) :
    sqGet (siaSquare n k) i j = if siaEntry n i j ≤ k then siaEntry n i j else 0 := by
  unfold sqGet
  rw [sia_row n k i hi, List.getD_eq_getElem _ _ (by simpa using hj), List.getElem_map,
    List.getElem_range]

/-- Two n×n squares with the same cells are equal. -/
theorem sia_square_ext (n : ℕ) (sq1 sq2 : List (List ℕ))
    (hl1 : sq1.length = n) (hl2 : sq2.length = n)
    (hr1 : ∀ i, i < n → (sq1.getD i []).length = n)
    (hr2 : ∀ i, i < n → (sq2.getD i []).length = n)
    (hc : ∀ i, i < n → ∀ j, j < n → sqGet sq1 i j = sqGet sq2 i j) : sq1 = sq2 := by
  apply List.ext_getElem (by omega)
  intro i h1 h2
  have hi : i < n := by omega
  have r1 : sq1.getD i [] = sq1[i] := List.getD_eq_getElem _ _ h1
  have r2 : sq2.getD i [] = sq2[i] := List.getD_eq_getElem _ _ h2
  have len1 : sq1[i].length = n := by rw [← r1]; exact hr1 i hi
  have len2 : sq2[i].length = n := by rw [← r2]; exact hr2 i hi
  apply List.ext_getElem (by omega)
  intro j hj1 hj2
  have hj : j < n := by omega
  have c := hc i hi j hj
  unfold sqGet at c
  rw [r1, r2, List.getD_eq_getElem (sq1[i]) 0 (by omega),
    List.getD_eq_getElem (sq2[i]) 0 (by omega)] at c
  exact c

theorem setCell_natCast (sq : List (List ℕ)) (I J : ℕ) (v : ℕ) :
    QuadrupleGoddessSystem.setCell sq (I : ℤ) (J : ℤ) v =
      sq.set I ((sq.getD I []).set J v) := rfl

theorem getCell_natCast (sq : List (List ℕ)) (I J : ℕ) :
    QuadrupleGoddessSystem.getCell sq (I : ℤ) (J : ℤ) = sqGet sq I J := rfl

theorem set_row_getD (sq : List (List ℕ)) (I : ℕ) (row : List ℕ) (i : ℕ) (hi : i < sq.length) :
    (sq.set I row).getD i [] = if I = i then row else sq.getD i [] := by
  rw [List.getD_eq_getElem _ _ (by simpa using hi), List.getElem_set]
  split
  · rfl
  · exact (List.getD_eq_getElem _ _ hi).symm

theorem set_entry_getD (row : List ℕ) (J v j : ℕ) (hj : j < row.length) :
    (row.set J v).getD j 0 = if J = j then v else row.getD j 0 := by
  rw [List.getD_eq_getElem _ _ (by simpa using hj), List.getElem_set]
  split
  · rfl
  · exact (List.getD_eq_getElem _ _ hj).symm

theorem ite_le_succ_of_ne (e k : ℕ) (h : e ≠ k + 1) :
    (if e ≤ k then e else 0) = (if e ≤ k + 1 then e else 0) := by
  split_ifs <;> omega

theorem sqGet_set_row (sq : List (List ℕ)) (row : List ℕ) (i j I : ℕ) (hi : i < sq.length) :
    sqGet (sq.set I row) i j = if I = i then row.getD j 0 else sqGet sq i j := by
  unfold sqGet
  rw [set_row_getD _ _ _ _ hi]
  split
  · rfl
  · rfl

/-- Placing number k+1 at its cell turns the k-filled square into the
(k+1)-filled square. -/
theorem sia_setCell_step (n q r k : ℕ) (hodd : n % 2 = 1) (hq : q < n) (hr : r < n)
    (hk : k = n * q + r) :
    QuadrupleGoddessSystem.setCell (siaSquare n k) ((siaPosI n q r : ℕ) : ℤ)
      ((siaPosJ n q r : ℕ) : ℤ) (k + 1) = siaSquare n (k + 1) := by
  have hpos : 0 < n := by omega
  have hIlt := sia_posI_lt n q r hpos
  have hJlt := sia_posJ_lt n q r hpos
  rw [setCell_natCast]
  apply sia_square_ext n
  · rw [List.length_set]
    exact sia_length n k
  · exact sia_length n (k + 1)
  · intro i hi
    rw [set_row_getD _ _ _ _ (by rw [sia_length]; exact hi)]
    split
    · rw [List.length_set]
      exact sia_row_length n k _ hIlt
    · exact sia_row_length n k i hi
  · intro i hi
    exact sia_row_length n (k + 1) i hi
  · intro i hi j hj
    rw [sia_sqGet n (k + 1) i j hi hj,
      sqGet_set_row _ _ i j _ (by rw [sia_length]; exact hi)]
    by_cases hI : siaPosI n q r = i
    · rw [if_pos hI, set_entry_getD _ _ _ _ (by rw [sia_row_length n k _ hIlt]; exact hj)]
      by_cases hJ : siaPosJ n q r = j
      · rw [if_pos hJ, ← hI, ← hJ, sia_entry_pos n q r hodd hq hr, ← hk,
          if_pos (by omega : k + 1 ≤ k + 1)]
      · rw [if_neg hJ, hI]
        have hne : siaEntry n i j ≠ k + 1 := by
          intro he
          rw [hk, ← sia_entry_pos n q r hodd hq hr] at he
          obtain ⟨hii, hjj⟩ := sia_entry_inj n i j _ _ hodd hi hj hIlt hJlt he
          exact hJ hjj.symm
        show sqGet (siaSquare n k) i j = _
        rw [sia_sqGet n k i j hi hj]
        exact ite_le_succ_of_ne _ k hne
    · rw [if_neg hI, sia_sqGet n k i j hi hj]
      have hne : siaEntry n i j ≠ k + 1 := by
        intro he
        rw [hk, ← sia_entry_pos n q r hodd hq hr] at he
        obtain ⟨hii, hjj⟩ := sia_entry_inj n i j _ _ hodd hi hj hIlt hJlt he
        exact hI hii.symm
      exact ite_le_succ_of_ne _ k hne

/-- The Siamese loop invariant: starting from the k-filled square at the
cell for number k+1, the loop finishes the square. -/
theorem siameseGo_spec (n : ℕ) (hodd : n % 2 = 1) (hpos : 0 < n) :
    ∀ fuel k, k + fuel = n * n →
      QuadrupleGoddessSystem.siameseGo n fuel (k + 1) (siaSquare n k)
        ((siaPosI n (k / n) (k % n) : ℕ) : ℤ) ((siaPosJ n (k / n) (k % n) : ℕ) : ℤ) =
        siaSquare n (n * n) := by
  intro fuel
  induction fuel with
  | zero =>
    intro k hk
    have hkn : k = n * n := by omega
    subst hkn
    rfl
  | succ fuel ih =>
    intro k hk
    have hklt : k < n * n := by omega
    have hq : k / n < n := Nat.div_lt_of_lt_mul hklt
    have hr : k % n < n := Nat.mod_lt _ hpos
    have hkqr : k = n * (k / n) + k % n := (Nat.div_add_mod k n).symm
    simp only [QuadrupleGoddessSystem.siameseGo]
    rw [sia_setCell_step n (k / n) (k % n) k hodd hq hr hkqr]
    rw [sia_int_up n (siaPosI n (k / n) (k % n)) hpos,
      sia_int_down n (siaPosJ n (k / n) (k % n)) hpos]
    by_cases hcase : k % n + 1 < n
    · -- within a block: the diagonal target is still empty
      rw [sia_step_inblock_i n (k / n) (k % n) hodd hq hcase,
        sia_step_inblock_j n (k / n) (k % n) hodd hq hcase,
        getCell_natCast, sia_sqGet n (k + 1) _ _ (sia_posI_lt n _ _ hpos)
          (sia_posJ_lt n _ _ hpos),
        sia_entry_pos n (k / n) (k % n + 1) hodd hq hcase,
        if_neg (by omega : ¬ n * (k / n) + (k % n + 1) + 1 ≤ k + 1)]
      rw [if_neg (by simp)]
      have hdiv : (k + 1) / n = k / n := by
        conv_lhs => rw [show k + 1 = n * (k / n) + (k % n + 1) by omega]
        rw [Nat.mul_add_div hpos, Nat.div_eq_of_lt hcase, Nat.add_zero]
      have hmod : (k + 1) % n = k % n + 1 := by
        conv_lhs => rw [show k + 1 = n * (k / n) + (k % n + 1) by omega]
        rw [Nat.mul_add_mod, Nat.mod_eq_of_lt hcase]
      have h := ih (k + 1) (by omega)
      rw [hdiv, hmod] at h
      exact h
    · -- block end: the diagonal target is the occupied block start
      have hrn : k % n = n - 1 := by omega
      rw [hrn]
      rw [sia_step_blockend_i n (k / n) hodd hq, sia_step_blockend_j n (k / n) hodd hq,
        getCell_natCast, sia_sqGet n (k + 1) _ _ (sia_posI_lt n _ _ hpos)
          (sia_posJ_lt n _ _ hpos),
        sia_entry_pos n (k / n) 0 hodd hq hpos,
        if_pos (by omega : n * (k / n) + 0 + 1 ≤ k + 1)]
      rw [if_pos (by omega : n * (k / n) + 0 + 1 ≠ 0)]
      rw [sia_int_down n (siaPosI n (k / n) (n - 1)) hpos,
        sia_step_down_i n (k / n) hodd hq, sia_step_down_j n (k / n) hodd hq]
      have hmuln : n * (k / n) + n = n * (k / n + 1) := by ring
      have hk1 : k + 1 = n * (k / n + 1) := by omega
      have hdiv : (k + 1) / n = k / n + 1 := by
        rw [hk1, Nat.mul_div_cancel_left _ hpos]
      have hmod : (k + 1) % n = 0 := by
        rw [hk1, Nat.mul_mod_right]
      have h := ih (k + 1) (by omega)
      rw [hdiv, hmod] at h
      exact h

/-- The empty square is the 0-filled closed-form square. -/
theorem sia_square_zero (n : ℕ) :
    siaSquare n 0 = List.replicate n (List.replicate n (0 : ℕ)) := by
  apply List.ext_getElem (by rw [sia_length]; simp)
  intro i h1 h2
  have hi : i < n := by rw [sia_length] at h1; exact h1
  have r1 : (siaSquare n 0)[i] = (siaSquare n 0).getD i [] :=
    (List.getD_eq_getElem _ _ h1).symm
  rw [r1, sia_row n 0 i hi, List.getElem_replicate]
  apply List.ext_getElem (by simp)
  intro j hj1 hj2
  have hj : j < n := by simpa using hj2
  rw [List.getElem_map, List.getElem_range, List.getElem_replicate,
    if_neg (by simp [siaEntry])]

/-- On odd sizes, `generate_custom_square` computes exactly the closed
form. -/
theorem generate_custom_square_eq (n : ℕ) (hodd : n % 2 = 1) :
    QuadrupleGoddessSystem.generate_custom_square n = siaSquare n (n * n) := by
  have hpos : 0 < n := by omega
  unfold QuadrupleGoddessSystem.generate_custom_square
  rw [if_pos hodd]
  have h := siameseGo_spec n hodd hpos (n * n) 0 (by omega)
  rw [Nat.zero_div, Nat.zero_mod, sia_pos_start_i n hpos, sia_pos_start_j n hpos,
    sia_square_zero] at h
  exact_mod_cast h

/-! ### C7 development: the sums of the closed form -/

theorem sia_list_sum (n : ℕ) (f : ℕ → ℕ) :
    ((List.range n).map f).sum = ∑ x ∈ Finset.range n, f x := by
  induction n with
  | zero => simp
  | succ m ih =>
    rw [List.range_succ, List.map_append, List.sum_append, Finset.sum_range_succ, ih]
    simp

/-- A self-injection of {0,…,n−1} is a permutation, so it preserves the
sum. -/
theorem sia_sum_inj (n : ℕ) (g : ℕ → ℕ) (hmem : ∀ x, x < n → g x < n)
    (hinj : ∀ x y, x < n → y < n → g x = g y → x = y) :
    ∑ x ∈ Finset.range n, g x = ∑ x ∈ Finset.range n, x := by
  have hinj' : ∀ x ∈ Finset.range n, ∀ y ∈ Finset.range n, g x = g y → x = y :=
    fun x hx y hy => hinj x y (Finset.mem_range.mp hx) (Finset.mem_range.mp hy)
  have himg : Finset.image g (Finset.range n) = Finset.range n := by
    apply Finset.eq_of_subset_of_card_le
    · intro y hy
      rw [Finset.mem_image] at hy
      obtain ⟨x, hx, rfl⟩ := hy
      rw [Finset.mem_range] at hx ⊢
      exact hmem x hx
    · rw [Finset.card_image_of_injOn (fun x hx y hy => hinj' x (by simpa using hx) y
        (by simpa using hy))]
  calc ∑ x ∈ Finset.range n, g x = ∑ x ∈ Finset.image g (Finset.range n), x :=
        (@Finset.sum_image ℕ ℕ ℕ (fun x => x) _ _ (Finset.range n) g hinj').symm
    _ = ∑ x ∈ Finset.range n, x := by rw [himg]

theorem sia_inj_add (n c : ℕ) (hpos : 0 < n) :
    ∀ x y, x < n → y < n → (x + c) % n = (y + c) % n → x = y := by
  intro x y hx hy h
  have h1 : x ≡ y [MOD n] := Nat.ModEq.add_right_cancel' c h
  have h2 : x % n = y % n := h1
  rwa [Nat.mod_eq_of_lt hx, Nat.mod_eq_of_lt hy] at h2

theorem sia_gcd_two (n : ℕ) (hodd : n % 2 = 1) : n.gcd 2 = 1 := by
  have h2 : Nat.Coprime 2 n := (Nat.prime_two.coprime_iff_not_dvd).mpr (by omega)
  exact Nat.coprime_comm.mp h2

theorem sia_inj_mul2 (n c : ℕ) (hodd : n % 2 = 1) :
    ∀ x y, x < n → y < n → (2 * x + c) % n = (2 * y + c) % n → x = y := by
  intro x y hx hy h
  have h1 : 2 * x ≡ 2 * y [MOD n] := Nat.ModEq.add_right_cancel' c h
  have h2 : x ≡ y [MOD n] := Nat.ModEq.cancel_left_of_coprime (sia_gcd_two n hodd) h1
  have h3 : x % n = y % n := h2
  rwa [Nat.mod_eq_of_lt hx, Nat.mod_eq_of_lt hy] at h3

theorem sia_sum_add (n c : ℕ) (hpos : 0 < n) :
    ∑ x ∈ Finset.range n, (x + c) % n = ∑ x ∈ Finset.range n, x :=
  sia_sum_inj n _ (fun x _ => Nat.mod_lt _ hpos) (sia_inj_add n c hpos)

theorem sia_sum_mul2 (n c : ℕ) (hodd : n % 2 = 1) :
    ∑ x ∈ Finset.range n, (2 * x + c) % n = ∑ x ∈ Finset.range n, x :=
  sia_sum_inj n _ (fun x _ => Nat.mod_lt _ (by omega)) (sia_inj_mul2 n c hodd)

/-- The pairing i ↔ n−1−i settles the main-diagonal map 3i+1 even when
3 divides n. -/
theorem sia_sum_three (n : ℕ) (hodd : n % 2 = 1) :
    ∑ x ∈ Finset.range n, (3 * x + 1) % n = ∑ x ∈ Finset.range n, x := by
  have hpos : 0 < n := by omega
  have hpair : ∀ i, i < n → (3 * i + 1) % n + (3 * (n - 1 - i) + 1) % n = n - 1 := by
    intro i hi
    have ha : (3 * i + 1) % n < n := Nat.mod_lt _ hpos
    have hb : (3 * (n - 1 - i) + 1) % n < n := Nat.mod_lt _ hpos
    have hsum : (3 * i + 1) + (3 * (n - 1 - i) + 1) = (n - 1) + 2 * n := by omega
    have hmod : ((3 * i + 1) % n + (3 * (n - 1 - i) + 1) % n) % n = (n - 1) % n := by
      rw [← Nat.add_mod, hsum, Nat.add_mul_mod_self_right]
    have hn1 : (n - 1) % n = n - 1 := Nat.mod_eq_of_lt (by omega)
    rw [hn1] at hmod
    have hX : (3 * i + 1) % n + (3 * (n - 1 - i) + 1) % n < 2 * n := by omega
    have hd2 : ((3 * i + 1) % n + (3 * (n - 1 - i) + 1) % n) / n < 2 :=
      (Nat.div_lt_iff_lt_mul hpos).mpr hX
    have hcases := Nat.le_one_iff_eq_zero_or_eq_one.mp (Nat.lt_succ_iff.mp hd2)
    have hd := Nat.div_add_mod ((3 * i + 1) % n + (3 * (n - 1 - i) + 1) % n) n
    rcases hcases with h0 | h1
    · rw [h0] at hd
      omega
    · rw [h1] at hd
      omega
  have hrefl := Finset.sum_range_reflect (fun i => (3 * i + 1) % n) n
  have h2S : (∑ x ∈ Finset.range n, (3 * x + 1) % n) * 2 = n * (n - 1) := by
    have e1 : (∑ x ∈ Finset.range n, (3 * x + 1) % n) * 2 =
        (∑ x ∈ Finset.range n, (3 * x + 1) % n) +
          (∑ x ∈ Finset.range n, (3 * (n - 1 - x) + 1) % n) := by
      rw [hrefl]
      ring
    rw [e1, ← Finset.sum_add_distrib]
    calc ∑ x ∈ Finset.range n, ((3 * x + 1) % n + (3 * (n - 1 - x) + 1) % n)
        = ∑ _x ∈ Finset.range n, (n - 1) :=
          Finset.sum_congr rfl (fun x hx => hpair x (Finset.mem_range.mp hx))
      _ = n * (n - 1) := by rw [Finset.sum_const, Finset.card_range, smul_eq_mul]
  have hG := Finset.sum_range_id_mul_two n
  omega

theorem sia_Q_antidiag (n i : ℕ) (hodd : n % 2 = 1) (hi : i < n) :
    siaQ n i (n - 1 - i) = n / 2 := by
  unfold siaQ
  rw [show i + (n - 1 - i) + (n + 1) / 2 = n / 2 + n by omega, Nat.add_mod_right,
    Nat.mod_eq_of_lt (by omega)]

theorem sia_R_antidiag (n i : ℕ) (hpos : 0 < n) (hi : i < n) :
    siaR n i (n - 1 - i) = n - 1 - i := by
  unfold siaR
  rw [show i + 2 * (n - 1 - i) + 1 = (n - 1 - i) + n by omega, Nat.add_mod_right,
    Nat.mod_eq_of_lt (by omega)]

theorem sia_entry_ge_one (n i j : ℕ) : 1 ≤ siaEntry n i j := by
  unfold siaEntry
  omega

theorem sia_entry_le (n i j : ℕ) (hpos : 0 < n) : siaEntry n i j ≤ n * n := by
  unfold siaEntry
  have hQ := sia_Q_lt n i j hpos
  have hR := sia_R_lt n i j hpos
  have h1 : n * siaQ n i j ≤ n * (n - 1) := Nat.mul_le_mul_left n (by omega)
  have h2 : n * (n - 1) + n = n * n := by
    rw [← Nat.mul_succ, show (n - 1).succ = n by omega]
  omega

/-- The finished square holds exactly the closed-form entries. -/
theorem sia_final_cell (n i j : ℕ) (hpos : 0 < n) (hi : i < n) (hj : j < n) :
    sqGet (siaSquare n (n * n)) i j = siaEntry n i j := by
  rw [sia_sqGet n (n * n) i j hi hj, if_pos (sia_entry_le n i j hpos)]

theorem sia_magic_algebra (n : ℕ) (hodd : n % 2 = 1) :
    n * (n * (n - 1) / 2) + n * (n - 1) / 2 + n = magicConstant n := by
  obtain ⟨c, hc⟩ : ∃ c, n = 2 * c + 1 := ⟨n / 2, by omega⟩
  subst hc
  have hG : (2 * c + 1) * ((2 * c + 1) - 1) / 2 = (2 * c + 1) * c := by
    rw [show (2 * c + 1) - 1 = 2 * c by omega,
      show (2 * c + 1) * (2 * c) = 2 * ((2 * c + 1) * c) by ring,
      Nat.mul_div_cancel_left _ (by omega : 0 < 2)]
  have hM : magicConstant (2 * c + 1) = (2 * c + 1) * (2 * c * c + 2 * c + 1) := by
    unfold magicConstant
    rw [show (2 * c + 1) * (2 * c + 1) + 1 = 2 * (2 * c * c + 2 * c + 1) by ring,
      show (2 * c + 1) * (2 * (2 * c * c + 2 * c + 1)) =
        2 * ((2 * c + 1) * (2 * c * c + 2 * c + 1)) by ring,
      Nat.mul_div_cancel_left _ (by omega : 0 < 2)]
  rw [hG, hM]
  ring

theorem sia_half_mul (n : ℕ) (hodd : n % 2 = 1) : n * (n / 2) = n * (n - 1) / 2 := by
  obtain ⟨c, hc⟩ : ∃ c, n = 2 * c + 1 := ⟨n / 2, by omega⟩
  subst hc
  rw [show (2 * c + 1) / 2 = c by omega, show (2 * c + 1) - 1 = 2 * c by omega,
    show (2 * c + 1) * (2 * c) = 2 * ((2 * c + 1) * c) by ring,
    Nat.mul_div_cancel_left _ (by omega : 0 < 2)]

theorem sia_rowSum (n i : ℕ) (hodd : n % 2 = 1) (hi : i < n) :
    rowSum (siaSquare n (n * n)) n i = magicConstant n := by
  have hpos : 0 < n := by omega
  unfold rowSum
  rw [sia_list_sum]
  have hcells : ∀ j ∈ Finset.range n,
      sqGet (siaSquare n (n * n)) i j = n * siaQ n i j + siaR n i j + 1 := by
    intro j hj
    rw [sia_final_cell n i j hpos hi (Finset.mem_range.mp hj)]
    rfl
  rw [Finset.sum_congr rfl hcells, Finset.sum_add_distrib, Finset.sum_add_distrib,
    ← Finset.mul_sum]
  have hQ : ∑ j ∈ Finset.range n, siaQ n i j = ∑ j ∈ Finset.range n, j := by
    have h : ∀ j ∈ Finset.range n, siaQ n i j = (j + (i + (n + 1) / 2)) % n := by
      intro j hj
      unfold siaQ
      congr 1 <;> omega
    rw [Finset.sum_congr rfl h]
    exact sia_sum_add n _ hpos
  have hR : ∑ j ∈ Finset.range n, siaR n i j = ∑ j ∈ Finset.range n, j := by
    have h : ∀ j ∈ Finset.range n, siaR n i j = (2 * j + (i + 1)) % n := by
      intro j hj
      unfold siaR
      congr 1 <;> omega
    rw [Finset.sum_congr rfl h]
    exact sia_sum_mul2 n _ hodd
  rw [hQ, hR, Finset.sum_range_id, Finset.sum_const, Finset.card_range, smul_eq_mul,
    mul_one]
  exact sia_magic_algebra n hodd

theorem sia_colSum (n j : ℕ) (hodd : n % 2 = 1) (hj : j < n) :
    colSum (siaSquare n (n * n)) n j = magicConstant n := by
  have hpos : 0 < n := by omega
  unfold colSum
  rw [sia_list_sum]
  have hcells : ∀ i ∈ Finset.range n,
      sqGet (siaSquare n (n * n)) i j = n * siaQ n i j + siaR n i j + 1 := by
    intro i hi
    rw [sia_final_cell n i j hpos (Finset.mem_range.mp hi) hj]
    rfl
  rw [Finset.sum_congr rfl hcells, Finset.sum_add_distrib, Finset.sum_add_distrib,
    ← Finset.mul_sum]
  have hQ : ∑ i ∈ Finset.range n, siaQ n i j = ∑ i ∈ Finset.range n, i := by
    have h : ∀ i ∈ Finset.range n, siaQ n i j = (i + (j + (n + 1) / 2)) % n := by
      intro i hi
      unfold siaQ
      congr 1 <;> omega
    rw [Finset.sum_congr rfl h]
    exact sia_sum_add n _ hpos
  have hR : ∑ i ∈ Finset.range n, siaR n i j = ∑ i ∈ Finset.range n, i := by
    have h : ∀ i ∈ Finset.range n, siaR n i j = (i + (2 * j + 1)) % n := by
      intro i hi
      unfold siaR
      congr 1 <;> omega
    rw [Finset.sum_congr rfl h]
    exact sia_sum_add n _ hpos
  rw [hQ, hR, Finset.sum_range_id, Finset.sum_const, Finset.card_range, smul_eq_mul,
    mul_one]
  exact sia_magic_algebra n hodd

theorem sia_diagSum (n : ℕ) (hodd : n % 2 = 1) :
    diagSum (siaSquare n (n * n)) n = magicConstant n := by
  have hpos : 0 < n := by omega
  unfold diagSum
  rw [sia_list_sum]
  have hcells : ∀ i ∈ Finset.range n,
      sqGet (siaSquare n (n * n)) i i = n * siaQ n i i + siaR n i i + 1 := by
    intro i hi
    rw [sia_final_cell n i i hpos (Finset.mem_range.mp hi) (Finset.mem_range.mp hi)]
    rfl
  rw [Finset.sum_congr rfl hcells, Finset.sum_add_distrib, Finset.sum_add_distrib,
    ← Finset.mul_sum]
  have hQ : ∑ i ∈ Finset.range n, siaQ n i i = ∑ i ∈ Finset.range n, i := by
    have h : ∀ i ∈ Finset.range n, siaQ n i i = (2 * i + (n + 1) / 2) % n := by
      intro i hi
      unfold siaQ
      congr 1 <;> omega
    rw [Finset.sum_congr rfl h]
    exact sia_sum_mul2 n _ hodd
  have hR : ∑ i ∈ Finset.range n, siaR n i i = ∑ i ∈ Finset.range n, i := by
    have h : ∀ i ∈ Finset.range n, siaR n i i = (3 * i + 1) % n := by
      intro i hi
      unfold siaR
      congr 1 <;> omega
    rw [Finset.sum_congr rfl h]
    exact sia_sum_three n hodd
  rw [hQ, hR, Finset.sum_range_id, Finset.sum_const, Finset.card_range, smul_eq_mul,
    mul_one]
  exact sia_magic_algebra n hodd

theorem sia_antiDiagSum (n : ℕ) (hodd : n % 2 = 1) :
    antiDiagSum (siaSquare n (n * n)) n = magicConstant n := by
  have hpos : 0 < n := by omega
  unfold antiDiagSum
  rw [sia_list_sum]
  have hcells : ∀ i ∈ Finset.range n,
      sqGet (siaSquare n (n * n)) i (n - 1 - i) = n * (n / 2) + (n - 1 - i) + 1 := by
    intro i hi
    have hi' : i < n := Finset.mem_range.mp hi
    rw [sia_final_cell n i (n - 1 - i) hpos hi' (by omega)]
    unfold siaEntry
    rw [sia_Q_antidiag n i hodd hi', sia_R_antidiag n i hpos hi']
  rw [Finset.sum_congr rfl hcells, Finset.sum_add_distrib, Finset.sum_add_distrib]
  have hrefl : ∑ i ∈ Finset.range n, (n - 1 - i) = ∑ i ∈ Finset.range n, i :=
    Finset.sum_range_reflect (fun x => x) n
  rw [hrefl, Finset.sum_range_id, Finset.sum_const, Finset.sum_const, Finset.card_range,
    smul_eq_mul, smul_eq_mul, mul_one, sia_half_mul n hodd]
  exact sia_magic_algebra n hodd

set_option maxRecDepth 10000 in
/-- C7: for every odd N ≥ 3, `generate_custom_square` builds an N×N
square holding each of 1..N² exactly once with every row, column and
both main diagonals summing to N·(N²+1)/2; for N = 3 it reproduces the
Lo Shu square up to reflection (the Saturn square with its rows
reversed, all sums 15), and the magic constants for N = 5 and N = 7 are
65 and 175. -/
theorem custom_square_magic (n : ℕ) (h3 : 3 ≤ n) (hodd : n % 2 = 1) :
    isMagicSquare (QuadrupleGoddessSystem.generate_custom_square n) n ∧
    QuadrupleGoddessSystem.generate_custom_square 3 =
      MagicSquareGenerator.generate_saturn_square.reverse ∧
    magicConstant 3 = 15 ∧ magicConstant 5 = 65 ∧ magicConstant 7 = 175 := by
  have hpos : 0 < n := by omega
  refine ⟨?_, by decide, by decide, by decide, by decide⟩
  rw [generate_custom_square_eq n hodd]
  refine ⟨sia_length n _, ?_, ?_, ?_, ?_, ?_, ?_, sia_diagSum n hodd, sia_antiDiagSum n hodd⟩
  · -- every row has n entries
    intro row hrow
    unfold siaSquare at hrow
    rw [List.mem_map] at hrow
    obtain ⟨i, hi, rfl⟩ := hrow
    simp
  · -- cells are between 1 and n²
    intro i hi j hj
    rw [sia_final_cell n i j hpos hi hj]
    exact ⟨sia_entry_ge_one n i j, sia_entry_le n i j hpos⟩
  · -- cells are pairwise distinct
    intro p hp p' hp' h
    have h1 : p / n < n := Nat.div_lt_of_lt_mul hp
    have h2 : p % n < n := Nat.mod_lt _ hpos
    have h3' : p' / n < n := Nat.div_lt_of_lt_mul hp'
    have h4 : p' % n < n := Nat.mod_lt _ hpos
    rw [sia_final_cell n _ _ hpos h1 h2, sia_final_cell n _ _ hpos h3' h4] at h
    obtain ⟨hii, hjj⟩ := sia_entry_inj n _ _ _ _ hodd h1 h2 h3' h4 h
    have e1 := Nat.div_add_mod p n
    have e2 := Nat.div_add_mod p' n
    rw [hii, hjj] at e1
    omega
  · -- every value 1..n² is hit
    intro v hv
    have h1 : v / n < n := Nat.div_lt_of_lt_mul hv
    have h2 : v % n < n := Nat.mod_lt _ hpos
    refine ⟨siaPosI n (v / n) (v % n), sia_posI_lt n _ _ hpos,
      siaPosJ n (v / n) (v % n), sia_posJ_lt n _ _ hpos, ?_⟩
    rw [sia_final_cell n _ _ hpos (sia_posI_lt n _ _ hpos) (sia_posJ_lt n _ _ hpos),
      sia_entry_pos n _ _ hodd h1 h2]
    have := Nat.div_add_mod v n
    omega
  · intro i hi
    exact sia_rowSum n i hodd hi
  · intro j hj
    exact sia_colSum n j hodd hj

/-- Instantiation of `custom_square_magic` at N = 3. -/
theorem custom_square_magic_witness :
    3 ≤ 3 ∧ 3 % 2 = 1 ∧
    (isMagicSquare (QuadrupleGoddessSystem.generate_custom_square 3) 3 ∧
    QuadrupleGoddessSystem.generate_custom_square 3 =
      MagicSquareGenerator.generate_saturn_square.reverse ∧
    magicConstant 3 = 15 ∧ magicConstant 5 = 65 ∧ magicConstant 7 = 175) :=
  ⟨by decide, by decide, custom_square_magic 3 (by decide) (by decide)⟩
